import Mathlib

set_option maxRecDepth 2000

/-!
Verification of the audio core of a turn-based web voice pipeline:
PCM sample conversion (capture-worklet.js, audioPlayback.js), RMS level
detection and end-of-turn detection (main.js), the frame chunker
(capture-worklet.js), the playback ring buffer (playback-worklet.js),
the knowledge-base fuzzy matcher (knowledgeBase.js) and the STT client
send guard (sttService.js).

JS numbers are modeled as exact rationals; every JS double is a rational,
and the arithmetic in the verified fragments (sums, products, comparisons,
truncation to 16-bit integers) is exact on the values that occur.  The one
irrational operation, Math.sqrt, is modeled by Real.sqrt.  A JS division
whose divisor is zero yields NaN; it is modeled by an Option result, none
standing for NaN.
-/

/-! ### PCM sample conversion -/

/-- Truncation toward zero, the conversion JS applies when an in-range
number is stored into an Int16Array element. -/
def jsTrunc (v : ℚ) : ℤ := if 0 ≤ v then ⌊v⌋ else ⌈v⌉

/-- Clamp to [-1, 1], from capture-worklet.js float32ToInt16:
Math.max(-1, Math.min(1, float32Array[i])). -/
def clampSample (x : ℚ) : ℚ := max (-1) (min 1 x)

/-- One sample of CaptureWorkletProcessor.float32ToInt16: clamp to [-1,1],
scale negatives by 0x8000 = 32768 and non-negatives by 0x7FFF = 32767,
then store into an Int16Array (truncation toward zero). -/
def float32ToInt16Sample (x : ℚ) : ℤ :=
  let clamped := clampSample x
  if clamped < 0 then jsTrunc (clamped * 32768) else jsTrunc (clamped * 32767)

/-- CaptureWorkletProcessor.float32ToInt16 applied to a whole buffer. -/
def float32ToInt16 (xs : List ℚ) : List ℤ := xs.map float32ToInt16Sample

/-- One sample of the decoding loop in AudioPlayback.addAudioChunk:
float32Data[i] = int16Data[i] / (int16Data[i] < 0 ? 0x8000 : 0x7FFF). -/
def int16ToFloat32Sample (s : ℤ) : ℚ :=
  (s : ℚ) / (if s < 0 then 32768 else 32767)

/-- Encoding a floating-point sample to 16-bit PCM and decoding it back. -/
def pcmRoundTrip (x : ℚ) : ℚ := int16ToFloat32Sample (float32ToInt16Sample x)

/-! ### RMS level detection (VoiceAssistant.calculateRMS, main.js) -/

/-- JS division, with a zero divisor producing NaN (modeled as none). -/
def jsDiv (a b : ℚ) : Option ℚ := if b = 0 then none else some (a / b)

/-- The accumulation loop of VoiceAssistant.calculateRMS:
sum += (sample / 32768) * (sample / 32768). -/
def rmsSumSq (frame : List ℤ) : ℚ :=
  frame.foldl (fun (acc : ℚ) (s : ℤ) =>
    acc + ((s : ℚ) / 32768) * ((s : ℚ) / 32768)) 0

/-- VoiceAssistant.calculateRMS: Math.sqrt(sum / int16Data.length).
For an empty frame the division is 0/0 = NaN in JS, hence none. -/
noncomputable def calculateRMS (frame : List ℤ) : Option ℝ :=
  (jsDiv (rmsSumSq frame) (frame.length : ℚ)).map
    (fun (q : ℚ) => Real.sqrt (q : ℝ))

/-! ### End-of-turn detection and the max-duration timer (main.js) -/

/-- Energy threshold for speech, this.silenceThreshold = 0.01. -/
def silenceThreshold : ℚ := 1 / 100

/-- Duration of sustained silence ending a turn, this.silenceDuration = 600. -/
def silenceDurationMs : ℕ := 600

/-- Number of consecutive silent frames ending a turn,
Math.floor(this.silenceDuration / 20) = 30. -/
def requiredSilenceFrames : ℕ := silenceDurationMs / 20

/-- Wall-clock bound on a turn, the setTimeout delay in
VoiceAssistant.handleWakeWordDetected. -/
def maxSpeechDurationMs : ℕ := 2000

/-- The per-turn detector state mutated by the capture callback of
VoiceAssistant.startWakeWordListening and by the max-duration timer. -/
structure OrchState where
  isProcessing : Bool
  sttConnected : Bool
  hasSpeech : Bool
  consecutiveSilenceFrames : ℕ
  silenceTriggered : Bool
  audioStreamingStopped : Bool
  speechEndTime : Option ℤ
deriving DecidableEq

/-- The state established by VoiceAssistant.handleWakeWordDetected at the
start of a turn (isProcessing set, counters cleared, STT connected). -/
def postWakeState : OrchState :=
  { isProcessing := true, sttConnected := true, hasSpeech := false,
    consecutiveSilenceFrames := 0, silenceTriggered := false,
    audioStreamingStopped := false, speechEndTime := none }

/-- The capture callback of VoiceAssistant.startWakeWordListening, acting
on one frame whose RMS energy is the given value, at wall-clock time now. -/
def onAudioFrame (s : OrchState) (energy : ℚ) (now : ℤ) : OrchState :=
  if s.isProcessing ∧ s.sttConnected ∧ ¬s.audioStreamingStopped then
    if silenceThreshold < energy then
      { s with hasSpeech := true, consecutiveSilenceFrames := 0 }
    else if s.hasSpeech ∧ ¬s.silenceTriggered then
      let c := s.consecutiveSilenceFrames + 1
      if requiredSilenceFrames ≤ c then
        { s with consecutiveSilenceFrames := c, silenceTriggered := true,
                 audioStreamingStopped := true, speechEndTime := some now }
      else { s with consecutiveSilenceFrames := c }
    else s
  else s

/-- Processing a sequence of frames, each given as (energy, arrival time). -/
def runFrames (s : OrchState) (frames : List (ℚ × ℤ)) : OrchState :=
  frames.foldl (fun st f => onAudioFrame st f.1 f.2) s

/-- The setTimeout callback armed in VoiceAssistant.handleWakeWordDetected,
firing at wall-clock time now. -/
def onMaxDurationTimeout (s : OrchState) (now : ℤ) : OrchState :=
  if s.isProcessing ∧ s.sttConnected ∧ ¬s.silenceTriggered then
    { s with audioStreamingStopped := true, speechEndTime := some now }
  else s

/-! ### Frame chunker (CaptureWorkletProcessor.process) -/

/-- Frame size in samples, this.bufferSize = 320 (20ms at 16kHz). -/
def frameSize : ℕ := 320

/-- Appending one incoming sample to the accumulation buffer; when the
buffer reaches frameSize the PCM-converted frame is emitted and the
buffer index is reset. -/
def chunkPush (acc : List ℚ) (x : ℚ) : List ℚ × Option (List ℤ) :=
  let acc2 := acc ++ [x]
  if frameSize ≤ acc2.length then ([], some (float32ToInt16 acc2)) else (acc2, none)

/-- The loop of CaptureWorkletProcessor.process over the samples of one
input block, threading the accumulation buffer and collecting the frames
posted to the main thread. -/
def chunkSamples : List ℚ → List ℚ → List ℚ × List (List ℤ)
  | acc, [] => (acc, [])
  | acc, x :: xs =>
    match chunkPush acc x with
    | (acc2, none) => chunkSamples acc2 xs
    | (acc2, some f) =>
      let r := chunkSamples acc2 xs
      (r.1, f :: r.2)

/-- Repeated calls of CaptureWorkletProcessor.process, one per input block
delivered by the audio callback. -/
def chunkBlocks (acc : List ℚ) (blocks : List (List ℚ)) : List ℚ × List (List ℤ) :=
  blocks.foldl (fun st b =>
    let r := chunkSamples st.1 b
    (r.1, st.2 ++ r.2)) (acc, [])

/-! ### Playback ring buffer (PlaybackWorkletProcessor) -/

/-- Ring capacity in samples, this.bufferSize = 32000 (2s at 16kHz). -/
def pbCapacity : ℕ := 32000

/-- Jitter buffer threshold, this.jitterBufferSize = 1920 (120ms). -/
def jitterBufferSize : ℤ := 1920

/-- State of PlaybackWorkletProcessor: the ring storage, both indices,
the unread-sample count and the primed flag. -/
structure PBState where
  buf : ℕ → ℚ
  writeIndex : ℕ
  readIndex : ℕ
  samplesAvailable : ℤ
  isPlaying : Bool

/-- Events posted to the main thread by the worklet. -/
inductive PBEvent where
  | started
  | ended
deriving DecidableEq

/-- The empty, unprimed buffer (the constructor state). -/
def initPB : PBState :=
  { buf := fun _ => 0, writeIndex := 0, readIndex := 0,
    samplesAvailable := 0, isPlaying := false }

/-- One iteration of the write loop of addAudioData: store the sample,
advance writeIndex modulo capacity, bump samplesAvailable, and on
reaching capacity drop the oldest unread samples by snapping
samplesAvailable to capacity - 1 and readIndex to writeIndex + 1. -/
def addSample (s : PBState) (x : ℚ) : PBState :=
  let buf2 := fun i => if i = s.writeIndex then x else s.buf i
  let wi := (s.writeIndex + 1) % pbCapacity
  let av := s.samplesAvailable + 1
  if (pbCapacity : ℤ) ≤ av then
    { buf := buf2, writeIndex := wi, readIndex := (wi + 1) % pbCapacity,
      samplesAvailable := (pbCapacity : ℤ) - 1, isPlaying := s.isPlaying }
  else
    { buf := buf2, writeIndex := wi, readIndex := s.readIndex,
      samplesAvailable := av, isPlaying := s.isPlaying }

/-- PlaybackWorkletProcessor.addAudioData: write every incoming sample,
then fire the started event once the jitter buffer is filled. -/
def addAudioData (s : PBState) (xs : List ℚ) : PBState × List PBEvent :=
  let s2 := xs.foldl addSample s
  if ¬s2.isPlaying ∧ jitterBufferSize ≤ s2.samplesAvailable then
    ({ s2 with isPlaying := true }, [PBEvent.started])
  else (s2, [])

/-- The output loop of PlaybackWorkletProcessor.process over one render
quantum of n samples: drain while data is available; on running out
mid-block write a zero, clear isPlaying, post the ended event and break.
Returns the final state, the samples written, and the events posted. -/
def processGo (s : PBState) : ℕ → PBState × List ℚ × List PBEvent
  | 0 => (s, [], [])
  | n + 1 =>
    if 0 < s.samplesAvailable then
      let out := s.buf s.readIndex
      let s2 := { s with readIndex := (s.readIndex + 1) % pbCapacity,
                         samplesAvailable := s.samplesAvailable - 1 }
      let r := processGo s2 n
      (r.1, out :: r.2.1, r.2.2)
    else
      ({ s with isPlaying := false }, [0], [PBEvent.ended])

/-- PlaybackWorkletProcessor.process: when not primed or empty the block
is silence and nothing changes; otherwise the drain loop runs, and the
output cells not written by it keep their initial zero fill. -/
def process (s : PBState) (n : ℕ) : PBState × List ℚ × List PBEvent :=
  if ¬s.isPlaying ∨ s.samplesAvailable = 0 then (s, List.replicate n 0, [])
  else
    let r := processGo s n
    (r.1, r.2.1 ++ List.replicate (n - r.2.1.length) 0, r.2.2)

/-- PlaybackWorkletProcessor.reset. -/
def resetPB (_s : PBState) : PBState := initPB

/-- The operations reaching the worklet: audio messages, render-quantum
pulls, and reset messages. -/
inductive PBOp where
  | write (xs : List ℚ)
  | read (n : ℕ)
  | reset
deriving DecidableEq

/-- Applying one operation, discarding output and events. -/
def applyOp (s : PBState) (op : PBOp) : PBState :=
  match op with
  | PBOp.write xs => (addAudioData s xs).1
  | PBOp.read n => (process s n).1
  | PBOp.reset => resetPB s

/-- Running a sequence of operations from a state. -/
def runOps (s : PBState) (ops : List PBOp) : PBState := ops.foldl applyOp s

/-- Applying one operation while accumulating the posted events. -/
def applyOpEv (st : PBState × List PBEvent) (op : PBOp) : PBState × List PBEvent :=
  match op with
  | PBOp.write xs =>
    let r := addAudioData st.1 xs
    (r.1, st.2 ++ r.2)
  | PBOp.read n =>
    let r := process st.1 n
    (r.1, st.2 ++ r.2.2)
  | PBOp.reset => (resetPB st.1, st.2)

/-- Running a sequence of operations while accumulating events. -/
def runOpsEv (s : PBState) (ops : List PBOp) : PBState × List PBEvent :=
  ops.foldl applyOpEv (s, [])

/-! ### STT client send guard (sttService.js) -/

/-- WebSocket.OPEN. -/
def wsOPEN : ℕ := 1

/-- Messages the client can put on the wire. -/
inductive SttMsg where
  | audioAppend (audio : List ℤ)
  | commit
  | sessionUpdate
deriving DecidableEq

/-- Client state: the socket (none when this.ws is null) carrying its
readyState, plus the connection and transcription flags. -/
structure STTState where
  ws : Option ℕ
  isConnected : Bool
  isTranscribing : Bool
deriving DecidableEq

/-- STTService.send: drop the message unless a socket exists and its
readyState is OPEN; the try/catch around ws.send never rethrows. -/
def send (s : STTState) (m : SttMsg) : STTState × List SttMsg :=
  match s.ws with
  | none => (s, [])
  | some rs => if rs ≠ wsOPEN then (s, []) else (s, [m])

/-- STTService.sendAudio: return early when not connected or the socket
is null, else encode the frame and hand it to send. -/
def sendAudio (s : STTState) (audioData : List ℤ) : STTState × List SttMsg :=
  if ¬s.isConnected ∨ s.ws = none then (s, [])
  else send s (SttMsg.audioAppend audioData)

/-! ### Knowledge base (knowledgeBase.js) -/

/-- Punctuation stripped by KnowledgeBase.normalize: [.,!?;:'"]. -/
def isPunct (c : Char) : Bool :=
  c = '.' ∨ c = ',' ∨ c = '!' ∨ c = '?' ∨ c = ';' ∨ c = ':' ∨
  c = Char.ofNat 39 ∨ c = '"'

/-- The whitespace class matched by JS \s and String.prototype.trim,
restricted to its ASCII members. -/
def jsWhitespaceChar (c : Char) : Bool :=
  c = ' ' ∨ c = Char.ofNat 9 ∨ c = Char.ofNat 10 ∨ c = Char.ofNat 13 ∨
  c = Char.ofNat 11 ∨ c = Char.ofNat 12

/-- String.prototype.trim: drop leading and trailing whitespace. -/
def jsTrim (s : String) : String :=
  String.mk ((((s.toList.dropWhile jsWhitespaceChar).reverse).dropWhile
    jsWhitespaceChar).reverse)

/-- Replacement of every maximal whitespace run by one space, the effect
of .replace(/\s+/g, ' '); the flag records whether the previous character
was part of a run. -/
def collapseWSAux : Bool → List Char → List Char
  | _, [] => []
  | prevWS, c :: cs =>
    if jsWhitespaceChar c then
      if prevWS then collapseWSAux true cs
      else ' ' :: collapseWSAux true cs
    else c :: collapseWSAux false cs

/-- KnowledgeBase.normalize: lowercase, trim, strip punctuation, collapse
whitespace runs, in source order. -/
def normalizeText (text : String) : String :=
  String.mk (collapseWSAux false
    (((jsTrim (String.mk (text.toList.map Char.toLower))).toList).filter
      (fun c => ¬isPunct c)))

/-- The inner loop of one row of the Levenshtein matrix: diag, left walk
along with the up row; matrix[i][j] = min(up + 1, left + 1, diag + cost). -/
def levRowGo (c1 : Char) : ℕ → ℕ → List Char → List ℕ → List ℕ
  | _, _, [], _ => []
  | _, _, _ :: _, [] => []
  | diag, left, c2 :: cs, up :: ups =>
    let v := min (up + 1) (min (left + 1) (diag + (if c1 = c2 then 0 else 1)))
    v :: levRowGo c1 up v cs ups

/-- The outer loop of KnowledgeBase.calculateLevenshtein: build row i from
row i - 1, with matrix[i][0] = i. -/
def levRows (s2 : List Char) : List ℕ → ℕ → List Char → List ℕ
  | row, _, [] => row
  | row, i, c1 :: cs =>
    match row with
    | [] => []
    | d :: rest => levRows s2 (i :: levRowGo c1 d i s2 rest) (i + 1) cs

/-- The edit distance matrix[len1][len2] computed by
KnowledgeBase.calculateLevenshtein. -/
def levDistance (str1 str2 : String) : ℕ :=
  ((levRows str2.toList (List.range (str2.toList.length + 1)) 1
    str1.toList).getLast?).getD 0

/-- KnowledgeBase.calculateLevenshtein: similarity
1 - distance / max(len1, len2).  Both arguments empty would be 0/0 = NaN
in JS; KnowledgeBase.find never makes that call (an empty key would have
matched earlier), so plain rational division is used here. -/
def calculateLevenshtein (str1 str2 : String) : ℚ :=
  1 - (levDistance str1 str2 : ℚ) / (max str1.length str2.length : ℚ)

/-- String.prototype.includes: substring containment, true for the empty
needle. -/
def jsIncludes (s sub : String) : Bool :=
  (s.toList.tails).any (fun t => sub.toList.isPrefixOf t)

/-- The normalized question-to-answer table that KnowledgeBase.load builds
from the JSON data. -/
def normData (data : List (String × String)) : List (String × String) :=
  data.map (fun e => (normalizeText e.1, e.2))

/-- Lookup of this.normalizedData[key]. -/
def lookupNorm (entries : List (String × String)) (k : String) : Option String :=
  (entries.find? (fun e => e.1 = k)).map Prod.snd

/-- Strategy 2 of KnowledgeBase.find: the first entry whose key contains
the query or is contained in it. -/
def containsMatch (entries : List (String × String)) (q : String) : Option String :=
  (entries.find? (fun e => jsIncludes q e.1 || jsIncludes e.1 q)).map Prod.snd

/-- Splitting on single spaces, keeping empty pieces, the behavior of
JS String.prototype.split(' '). -/
def splitSpaceAux (cur : List Char) : List Char → List (List Char)
  | [] => [cur.reverse]
  | c :: cs =>
    if c = ' ' then cur.reverse :: splitSpaceAux [] cs
    else splitSpaceAux (c :: cur) cs

/-- String.prototype.split(' '). -/
def splitSpace (s : String) : List String :=
  (splitSpaceAux [] s.toList).map String.mk

/-- The words of a normalized key that are indexed as keywords
(length > 2), from the keyword extraction in KnowledgeBase.load. -/
def keywordsOf (k : String) : List String :=
  (splitSpace k).filter (fun w => 2 < w.length)

/-- Deduplication keeping first occurrences, the JS Set insertion order. -/
def dedupFirstAux [DecidableEq α] (seen : List α) : List α → List α
  | [] => []
  | x :: xs =>
    if x ∈ seen then dedupFirstAux seen xs
    else x :: dedupFirstAux (x :: seen) xs

/-- Strategy 3 candidate set: normalized keys sharing an indexed keyword
with the query, in keyword-then-entry order, deduplicated. -/
def candidateKeys (entries : List (String × String)) (q : String) : List String :=
  dedupFirstAux []
    (((splitSpace q).filter (fun w => 2 < w.length)).flatMap
      (fun w => (entries.map Prod.fst).filter (fun k => w ∈ keywordsOf k)))

/-- The best-score loop of strategy 3: keep the strictly highest-scoring
candidate, resolving its answer through normalizedData. -/
def bestCandidate (entries : List (String × String)) (q : String)
    (cands : List String) : ℚ × Option String :=
  cands.foldl (fun best k =>
    let score := calculateLevenshtein q k
    if best.1 < score then (score, lookupNorm entries k) else best)
    ((0 : ℚ), (none : Option String))

/-- Strategy 4 of KnowledgeBase.find: the strictly highest-scoring entry
with score at or above the 0.5 threshold. -/
def bestFuzzy (entries : List (String × String)) (q : String) : Option String :=
  (entries.foldl (fun best e =>
    let score := calculateLevenshtein q e.1
    if best.1 < score ∧ (1 / 2 : ℚ) ≤ score then (score, some e.2) else best)
    ((0 : ℚ), (none : Option String))).2

/-- KnowledgeBase.find: exact match, then containment, then the keyword
stage accepted when its best score strictly exceeds 0.4, then the
all-entries fuzzy stage, else null. -/
def find (data : List (String × String)) (question : String) : Option String :=
  let entries := normData data
  let normalized := normalizeText question
  match lookupNorm entries normalized with
  | some a => some a
  | none =>
    match containsMatch entries normalized with
    | some a => some a
    | none =>
      let best := bestCandidate entries normalized (candidateKeys entries normalized)
      if (2 / 5 : ℚ) < best.1 then best.2
      else bestFuzzy entries normalized

/-- KnowledgeBase.getDefaultResponse. -/
def defaultResponse : String :=
  "I\x27m sorry, I don\x27t have information about that. Please try asking about Qplus or Quantum Strides."

/-- KnowledgeBase.getAnswer: answer || default, so a null result and also
an empty-string answer fall back to the default. -/
def getAnswer (data : List (String × String)) (question : String) : String :=
  match find data question with
  | some a => if a = "" then defaultResponse else a
  | none => defaultResponse

/-! ### Final-transcript handling (VoiceAssistant.handleFinalTranscript) -/

/-- Externally visible steps taken by handleFinalTranscript. -/
inductive TurnAction where
  | emptyLogged
  | backToListening
  | showFinal (text : String)
  | stopSTT
  | disconnectSTT
  | lookupAnswer (text : String)
  | showResponse (text : String)
  | speakText (text : String)
deriving DecidableEq

/-- VoiceAssistant.handleFinalTranscript: an empty or whitespace-only
transcript (!text || !text.trim()) logs and returns to wake-word
listening; otherwise the transcript is shown, STT stopped, the knowledge
base consulted and the response spoken. -/
def handleFinalTranscript (data : List (String × String)) (text : String) :
    List TurnAction :=
  if text = "" ∨ jsTrim text = "" then
    [TurnAction.emptyLogged, TurnAction.backToListening]
  else
    let response := getAnswer data text
    [TurnAction.showFinal text, TurnAction.stopSTT, TurnAction.disconnectSTT,
     TurnAction.lookupAnswer text, TurnAction.showResponse response,
     TurnAction.speakText response]

/-! ## Supporting lemmas -/

theorem clampSample_eq_self {x : ℚ} (h1 : -1 ≤ x) (h2 : x ≤ 1) :
    clampSample x = x := by
  unfold clampSample
  rw [min_eq_right h2, max_eq_right h1]

theorem rmsSumSq_foldl_eq_sum : ∀ (l : List ℤ) (a : ℚ),
    List.foldl (fun (acc : ℚ) (s : ℤ) =>
        acc + ((s : ℚ) / 32768) * ((s : ℚ) / 32768)) a l =
      a + (l.map (fun (s : ℤ) => ((s : ℚ) / 32768) ^ 2)).sum := by
  intro l
  induction l with
  | nil => intro a; simp
  | cons x xs ih =>
    intro a
    rw [List.foldl_cons, List.map_cons, List.sum_cons, ih]
    ring

/-! ## Claim theorems -/

/-- C3 (counterexample): at x = 32769/2^24 the PCM round trip misses x by
more than 1/32768, refuting the claimed plus-or-minus 1/32768 bound. -/
theorem pcm_roundtrip_step_counterexample :
    ((-1 : ℚ) ≤ 32769 / 16777216 ∧ (32769 / 16777216 : ℚ) ≤ 1) ∧
    ¬(|pcmRoundTrip (32769 / 16777216) - 32769 / 16777216| ≤ 1 / 32768) := by
  have h5 : clampSample (32769 / 16777216 : ℚ) = 32769 / 16777216 :=
    clampSample_eq_self (by norm_num) (by norm_num)
  have henc : float32ToInt16Sample (32769 / 16777216) = 63 := by
    simp only [float32ToInt16Sample, h5, jsTrunc]
    rw [if_neg (by norm_num), if_pos (by norm_num)]
    norm_num
  have hdec : pcmRoundTrip (32769 / 16777216) = 63 / 32767 := by
    simp only [pcmRoundTrip, henc, int16ToFloat32Sample]
    norm_num
  refine ⟨⟨by norm_num, by norm_num⟩, ?_⟩
  rw [hdec]
  rw [abs_le]
  norm_num

/-- C3 (amended): for every sample x in [-1,1] the value after encoding to
16-bit PCM and decoding back differs from x by strictly less than 1/32767
(one positive-side quantization step); the claimed 1/32768 bound holds on
the negative side but not the positive one. -/
theorem pcm_roundtrip_within_step (x : ℚ) (h1 : -1 ≤ x) (h2 : x ≤ 1) :
    |pcmRoundTrip x - x| < 1 / 32767 := by
  have hc : clampSample x = x := clampSample_eq_self h1 h2
  by_cases hx : x < 0
  · have hv : x * 32768 < 0 := by nlinarith
    have henc : float32ToInt16Sample x = ⌈x * 32768⌉ := by
      simp only [float32ToInt16Sample, hc, jsTrunc]
      rw [if_pos hx, if_neg (not_le.mpr hv)]
    by_cases hcz : ⌈x * 32768⌉ < 0
    · have hdec : pcmRoundTrip x = (⌈x * 32768⌉ : ℚ) / 32768 := by
        simp only [pcmRoundTrip, henc, int16ToFloat32Sample]
        rw [if_pos hcz]
      have hle : x * 32768 ≤ (⌈x * 32768⌉ : ℚ) := Int.le_ceil _
      have hlt : ((⌈x * 32768⌉ : ℤ) : ℚ) < x * 32768 + 1 := Int.ceil_lt_add_one _
      rw [hdec, abs_lt]
      constructor <;> nlinarith
    · have hcnp : ⌈x * 32768⌉ ≤ 0 := by
        rw [Int.ceil_le]
        push_cast
        linarith
      have hz : ⌈x * 32768⌉ = 0 := le_antisymm hcnp (not_lt.mp hcz)
      have hdec : pcmRoundTrip x = 0 := by
        simp [pcmRoundTrip, henc, int16ToFloat32Sample, hz]
      have hgt : (-1 : ℚ) < x * 32768 := by
        by_contra hle2
        push_neg at hle2
        have hcle : ⌈x * 32768⌉ ≤ -1 := by
          rw [Int.ceil_le]
          push_cast
          linarith
        omega
      rw [hdec, abs_lt]
      constructor <;> nlinarith
  · push_neg at hx
    have hv : 0 ≤ x * 32767 := mul_nonneg hx (by norm_num)
    have henc : float32ToInt16Sample x = ⌊x * 32767⌋ := by
      simp only [float32ToInt16Sample, hc, jsTrunc]
      rw [if_neg (not_lt.mpr hx), if_pos hv]
    have hfl : ¬(⌊x * 32767⌋ < 0) := not_lt.mpr (Int.floor_nonneg.mpr hv)
    have hdec : pcmRoundTrip x = (⌊x * 32767⌋ : ℚ) / 32767 := by
      simp only [pcmRoundTrip, henc, int16ToFloat32Sample]
      rw [if_neg hfl]
    have hle : ((⌊x * 32767⌋ : ℤ) : ℚ) ≤ x * 32767 := Int.floor_le _
    have hlt : x * 32767 < ⌊x * 32767⌋ + 1 := Int.lt_floor_add_one _
    rw [hdec, abs_lt]
    constructor <;> nlinarith

/-- Witness for the amended C3 bound at x = 1/2. -/
theorem pcm_roundtrip_within_step_witness :
    ((-1 : ℚ) ≤ 1 / 2 ∧ (1 / 2 : ℚ) ≤ 1) ∧
    |pcmRoundTrip (1 / 2) - 1 / 2| < 1 / 32767 :=
  ⟨⟨by norm_num, by norm_num⟩,
    pcm_roundtrip_within_step (1 / 2) (by norm_num) (by norm_num)⟩

/-- C6 (counterexample): on the empty frame calculateRMS is NaN (the JS
division 0/0), not the claimed 0. -/
theorem calculateRMS_empty_not_zero :
    calculateRMS [] = none ∧ calculateRMS [] ≠ some (0 : ℝ) := by
  constructor <;> simp [calculateRMS, jsDiv]

/-- C6 (amended): for every nonempty frame calculateRMS returns exactly
sqrt(sum((sample/32768)^2) / frameLength); it is a pure function of the
frame; the empty frame yields NaN rather than 0. -/
theorem calculateRMS_eq_sqrt (frame : List ℤ) (h : frame ≠ []) :
    calculateRMS frame =
      some (Real.sqrt ((((frame.map (fun (s : ℤ) => ((s : ℚ) / 32768) ^ 2)).sum /
        (frame.length : ℚ) : ℚ) : ℝ))) := by
  have hlen : (frame.length : ℚ) ≠ 0 := by
    have h0 : frame.length ≠ 0 := by
      simpa [List.length_eq_zero] using h
    exact_mod_cast h0
  have hsum : rmsSumSq frame =
      (frame.map (fun (s : ℤ) => ((s : ℚ) / 32768) ^ 2)).sum := by
    unfold rmsSumSq
    rw [rmsSumSq_foldl_eq_sum]
    ring
  unfold calculateRMS jsDiv
  rw [if_neg hlen, Option.map_some', hsum]

/-- Witness for the amended C6 statement on the one-sample frame. -/
theorem calculateRMS_eq_sqrt_witness :
    ([16384] : List ℤ) ≠ [] ∧
    calculateRMS [16384] =
      some (Real.sqrt (((([16384] : List ℤ).map
        (fun (s : ℤ) => ((s : ℚ) / 32768) ^ 2)).sum /
        (([16384] : List ℤ).length : ℚ) : ℚ) : ℝ)) :=
  ⟨by simp, calculateRMS_eq_sqrt [16384] (by simp)⟩

/-- C7: a final transcript that trims to the empty string produces no
knowledge-base lookup and no synthesis call, only the log entry and the
return to wake-word listening. -/
theorem empty_transcript_returns_to_listening (data : List (String × String))
    (text : String) (h : jsTrim text = "") :
    handleFinalTranscript data text =
      [TurnAction.emptyLogged, TurnAction.backToListening] ∧
    (∀ r, TurnAction.speakText r ∉ handleFinalTranscript data text) ∧
    (∀ q, TurnAction.lookupAnswer q ∉ handleFinalTranscript data text) := by
  have heq : handleFinalTranscript data text =
      [TurnAction.emptyLogged, TurnAction.backToListening] := by
    unfold handleFinalTranscript
    rw [if_pos (Or.inr h)]
  refine ⟨heq, ?_, ?_⟩ <;> intro r <;> rw [heq] <;> simp

/-- Witness for C7 on a whitespace-only transcript. -/
theorem empty_transcript_returns_to_listening_witness :
    jsTrim "  " = "" ∧
    handleFinalTranscript [] "  " =
      [TurnAction.emptyLogged, TurnAction.backToListening] :=
  ⟨by decide, (empty_transcript_returns_to_listening [] "  " (by decide)).1⟩

/-- C10: sendAudio on a client that is not connected, has no socket, or
whose socket is not in the OPEN state, transmits nothing and leaves the
client state unchanged (and, being total, raises nothing). -/
theorem sendAudio_not_open_noop (s : STTState) (audio : List ℤ)
    (h : s.isConnected = false ∨ s.ws = none ∨
      ∃ rs, s.ws = some rs ∧ rs ≠ wsOPEN) :
    sendAudio s audio = (s, []) := by
  unfold sendAudio send
  rcases h with h | h | ⟨rs, hrs, hne⟩
  · rw [if_pos (Or.inl (by simp [h]))]
  · rw [if_pos (Or.inr h)]
  · by_cases hcond : (¬s.isConnected ∨ s.ws = none)
    · rw [if_pos hcond]
    · rw [if_neg hcond]
      simp [hrs, hne]

/-- Witness for C10 on a connected client whose socket is CONNECTING. -/
theorem sendAudio_not_open_noop_witness :
    sendAudio { ws := some 0, isConnected := true, isTranscribing := true }
      [1, 2] =
      ({ ws := some 0, isConnected := true, isTranscribing := true }, []) :=
  sendAudio_not_open_noop _ _ (Or.inr (Or.inr ⟨0, rfl, by decide⟩))

theorem onAudioFrame_stopped (s : OrchState)
    (h : s.audioStreamingStopped = true) (e : ℚ) (now : ℤ) :
    onAudioFrame s e now = s := by
  unfold onAudioFrame
  rw [if_neg]
  simp [h]

theorem runFrames_stopped (s : OrchState)
    (h : s.audioStreamingStopped = true) :
    ∀ fs : List (ℚ × ℤ), runFrames s fs = s := by
  intro fs
  induction fs with
  | nil => rfl
  | cons f fs ih =>
    show runFrames (onAudioFrame s f.1 f.2) fs = s
    rw [onAudioFrame_stopped s h]
    exact ih

theorem runFrames_silence_iff : ∀ (fs : List (ℚ × ℤ)) (s : OrchState),
    s.isProcessing = true → s.sttConnected = true →
    s.audioStreamingStopped = false → s.silenceTriggered = false →
    s.hasSpeech = true →
    s.consecutiveSilenceFrames < requiredSilenceFrames →
    (∀ f ∈ fs, f.1 ≤ silenceThreshold) →
    ((runFrames s fs).silenceTriggered = true ↔
      requiredSilenceFrames ≤ s.consecutiveSilenceFrames + fs.length) := by
  intro fs
  induction fs with
  | nil =>
    intro s hp hstt hstop htr hsp hlt _
    rw [show runFrames s [] = s from rfl, htr]
    simp only [List.length_nil, Nat.add_zero]
    constructor
    · intro hcontra; exact absurd hcontra (by simp)
    · intro hge; omega
  | cons f fs ih =>
    intro s hp hstt hstop htr hsp hlt hall
    have hf : f.1 ≤ silenceThreshold := hall f (List.mem_cons_self _ _)
    have hall2 : ∀ g ∈ fs, g.1 ≤ silenceThreshold :=
      fun g hg => hall g (List.mem_cons_of_mem _ hg)
    rw [show runFrames s (f :: fs) = runFrames (onAudioFrame s f.1 f.2) fs from rfl]
    by_cases hreq : requiredSilenceFrames ≤ s.consecutiveSilenceFrames + 1
    · have hstep : onAudioFrame s f.1 f.2 =
          ⟨s.isProcessing, s.sttConnected, s.hasSpeech,
            s.consecutiveSilenceFrames + 1, true, true, some f.2⟩ := by
        simp [onAudioFrame, hp, hstt, hstop, htr, hsp, not_lt.mpr hf, hreq]
      rw [hstep, runFrames_stopped _ rfl]
      simp only [List.length_cons]
      constructor
      · intro _; omega
      · intro _; trivial
    · have hstep : onAudioFrame s f.1 f.2 =
          ⟨s.isProcessing, s.sttConnected, s.hasSpeech,
            s.consecutiveSilenceFrames + 1, s.silenceTriggered,
            s.audioStreamingStopped, s.speechEndTime⟩ := by
        simp [onAudioFrame, hp, hstt, hstop, htr, hsp, not_lt.mpr hf, hreq]
      rw [hstep]
      rw [ih ⟨s.isProcessing, s.sttConnected, s.hasSpeech,
            s.consecutiveSilenceFrames + 1, s.silenceTriggered,
            s.audioStreamingStopped, s.speechEndTime⟩
          hp hstt hstop htr hsp
          (by show s.consecutiveSilenceFrames + 1 < requiredSilenceFrames; omega)
          hall2]
      show (requiredSilenceFrames ≤ s.consecutiveSilenceFrames + 1 + fs.length) ↔ _
      simp only [List.length_cons]
      omega

/-- C1: in a turn where speech has been detected, the silence-based end of
turn triggers exactly on the 30th consecutive frame with energy at or
below the 0.01 threshold and never earlier (requiredSilenceFrames =
600/20 = 30), and any frame with energy strictly above the threshold
resets the consecutive-silence counter to zero without triggering. -/
theorem silence_timeout_exactly_30 (s : OrchState)
    (hp : s.isProcessing = true) (hstt : s.sttConnected = true)
    (hstop : s.audioStreamingStopped = false)
    (htr : s.silenceTriggered = false) (hsp : s.hasSpeech = true)
    (hlt : s.consecutiveSilenceFrames < requiredSilenceFrames) :
    requiredSilenceFrames = 30 ∧
    (∀ fs : List (ℚ × ℤ), (∀ f ∈ fs, f.1 ≤ silenceThreshold) →
      ((runFrames s fs).silenceTriggered = true ↔
        requiredSilenceFrames ≤ s.consecutiveSilenceFrames + fs.length)) ∧
    (∀ (e : ℚ) (now : ℤ), silenceThreshold < e →
      (onAudioFrame s e now).consecutiveSilenceFrames = 0 ∧
      (onAudioFrame s e now).silenceTriggered = false) := by
  refine ⟨rfl, ?_, ?_⟩
  · intro fs hall
    exact runFrames_silence_iff fs s hp hstt hstop htr hsp hlt hall
  · intro e now he
    have hstep : onAudioFrame s e now =
        ⟨s.isProcessing, s.sttConnected, true, 0, s.silenceTriggered,
          s.audioStreamingStopped, s.speechEndTime⟩ := by
      simp [onAudioFrame, hp, hstt, hstop, he]
    rw [hstep]
    exact ⟨rfl, htr⟩

/-- Witness for C1: from a fresh in-speech state, 30 silent frames set the
silence trigger. -/
theorem silence_timeout_exactly_30_witness :
    (runFrames
      ⟨true, true, true, 0, false, false, none⟩
      (List.replicate 30 ((0 : ℚ), (0 : ℤ)))).silenceTriggered = true := by
  have h := (silence_timeout_exactly_30
    ⟨true, true, true, 0, false, false, none⟩
    rfl rfl rfl rfl rfl (by norm_num [requiredSilenceFrames, silenceDurationMs])).2.1
    (List.replicate 30 ((0 : ℚ), (0 : ℤ)))
    (fun f hf => by
      rw [List.eq_of_mem_replicate hf]
      norm_num [silenceThreshold])
  exact h.mpr (by simp [requiredSilenceFrames, silenceDurationMs])

theorem runFrames_no_speech : ∀ (fs : List (ℚ × ℤ)),
    (∀ f ∈ fs, f.1 ≤ silenceThreshold) →
    runFrames postWakeState fs = postWakeState := by
  intro fs
  induction fs with
  | nil => intro _; rfl
  | cons f fs ih =>
    intro hall
    have hf : f.1 ≤ silenceThreshold := hall f (List.mem_cons_self _ _)
    have hstep : onAudioFrame postWakeState f.1 f.2 = postWakeState := by
      simp [onAudioFrame, postWakeState, not_lt.mpr hf]
    show runFrames (onAudioFrame postWakeState f.1 f.2) fs = postWakeState
    rw [hstep]
    exact ih (fun g hg => hall g (List.mem_cons_of_mem _ hg))

/-- C9: the max-duration timer is armed for maxSpeechDurationMs = 2000ms;
when it fires during a turn whose silence-based end has not triggered it
stops audio streaming and records the speech-end timestamp (and is a
no-op once the silence trigger fired); in particular a turn whose frames
never exceed the speech threshold never triggers the silence end, so the
timer is what ends it. -/
theorem max_duration_timeout_ends_turn :
    maxSpeechDurationMs = 2000 ∧
    (∀ (s : OrchState) (now : ℤ), s.isProcessing = true →
      s.sttConnected = true → s.silenceTriggered = false →
      onMaxDurationTimeout s now =
        { s with audioStreamingStopped := true, speechEndTime := some now }) ∧
    (∀ (s : OrchState) (now : ℤ), s.silenceTriggered = true →
      onMaxDurationTimeout s now = s) ∧
    (∀ fs : List (ℚ × ℤ), (∀ f ∈ fs, f.1 ≤ silenceThreshold) → ∀ now : ℤ,
      (runFrames postWakeState fs).silenceTriggered = false ∧
      (onMaxDurationTimeout (runFrames postWakeState fs) now).audioStreamingStopped
        = true ∧
      (onMaxDurationTimeout (runFrames postWakeState fs) now).speechEndTime
        = some now) := by
  refine ⟨rfl, ?_, ?_, ?_⟩
  · intro s now hp hstt htr
    unfold onMaxDurationTimeout
    rw [if_pos ⟨hp, hstt, by simp [htr]⟩]
  · intro s now htr
    unfold onMaxDurationTimeout
    rw [if_neg]
    simp [htr]
  · intro fs hall now
    rw [runFrames_no_speech fs hall]
    have hstep : onMaxDurationTimeout postWakeState now =
        { postWakeState with
            audioStreamingStopped := true
            speechEndTime := some now } := by
      unfold onMaxDurationTimeout
      rw [if_pos]
      exact ⟨rfl, rfl, by simp [postWakeState]⟩
    rw [hstep]
    exact ⟨rfl, rfl, rfl⟩

/-- Witness for C9: ten silent frames after wake word, then the timer
fires and ends the turn. -/
theorem max_duration_timeout_ends_turn_witness :
    (onMaxDurationTimeout
      (runFrames postWakeState (List.replicate 10 ((0 : ℚ), (0 : ℤ)))) 2000
      ).audioStreamingStopped = true :=
  (max_duration_timeout_ends_turn.2.2.2
    (List.replicate 10 ((0 : ℚ), (0 : ℤ)))
    (fun f hf => by
      rw [List.eq_of_mem_replicate hf]
      norm_num [silenceThreshold]) 2000).2.1

theorem chunkSamples_nil (acc : List ℚ) : chunkSamples acc [] = (acc, []) := rfl

theorem chunkSamples_cons_emit (acc : List ℚ) (x : ℚ) (xs : List ℚ)
    (h : frameSize ≤ (acc ++ [x]).length) :
    chunkSamples acc (x :: xs) =
      ((chunkSamples [] xs).1,
        float32ToInt16 (acc ++ [x]) :: (chunkSamples [] xs).2) := by
  simp only [chunkSamples, chunkPush]
  rw [if_pos h]

theorem chunkSamples_cons_noemit (acc : List ℚ) (x : ℚ) (xs : List ℚ)
    (h : ¬frameSize ≤ (acc ++ [x]).length) :
    chunkSamples acc (x :: xs) = chunkSamples (acc ++ [x]) xs := by
  simp only [chunkSamples, chunkPush]
  rw [if_neg h]

theorem chunkSamples_invariant : ∀ (xs acc : List ℚ),
    acc.length < frameSize →
    (∀ f ∈ (chunkSamples acc xs).2, f.length = frameSize) ∧
    (chunkSamples acc xs).2.length = (acc.length + xs.length) / frameSize ∧
    (chunkSamples acc xs).2.flatten =
      float32ToInt16 ((acc ++ xs).take
        (frameSize * ((acc.length + xs.length) / frameSize))) ∧
    (chunkSamples acc xs).1 = (acc ++ xs).drop
      (frameSize * ((acc.length + xs.length) / frameSize)) := by
  intro xs
  induction xs with
  | nil =>
    intro acc hlt
    have hdiv : (acc.length + ([] : List ℚ).length) / frameSize = 0 :=
      Nat.div_eq_of_lt (by simp; omega)
    rw [chunkSamples_nil, hdiv]
    refine ⟨?_, ?_, ?_, ?_⟩
    · intro f hf; simp at hf
    · simp
    · simp [float32ToInt16]
    · simp
  | cons x xs ih =>
    intro acc hlt
    by_cases hfull : frameSize ≤ (acc ++ [x]).length
    · have hlen : acc.length + 1 = frameSize := by
        simp only [List.length_append, List.length_cons, List.length_nil] at hfull
        omega
      have hlen2 : (acc ++ [x]).length = frameSize := by
        simp only [List.length_append, List.length_cons, List.length_nil]
        omega
      obtain ⟨ih1, ih2, ih3, ih4⟩ := ih [] (by simp [frameSize])
      simp only [List.length_nil, Nat.zero_add] at ih1 ih2 ih3 ih4
      have htot : acc.length + (x :: xs).length = frameSize + xs.length := by
        simp only [List.length_cons]
        omega
      have hdiv : (frameSize + xs.length) / frameSize =
          xs.length / frameSize + 1 := by
        rw [Nat.add_comm frameSize xs.length]
        exact Nat.add_div_right _ (by norm_num [frameSize])
      have happ : acc ++ x :: xs = (acc ++ [x]) ++ xs := by
        simp
      rw [chunkSamples_cons_emit acc x xs hfull, htot, hdiv, happ]
      have hmul : frameSize * (xs.length / frameSize + 1) =
          (acc ++ [x]).length + frameSize * (xs.length / frameSize) := by
        rw [hlen2]
        ring
      rw [hmul, List.take_append, List.drop_append]
      refine ⟨?_, ?_, ?_, ?_⟩
      · intro f hf
        rcases List.mem_cons.mp hf with hf | hf
        · rw [hf]
          simp only [float32ToInt16, List.length_map]
          exact hlen2
        · exact ih1 f hf
      · simp only [List.length_cons, ih2]
      · simp [float32ToInt16, ih3, List.append_assoc]
      · exact ih4
    · have hlen2 : (acc ++ [x]).length < frameSize := not_le.mp hfull
      obtain ⟨ih1, ih2, ih3, ih4⟩ := ih (acc ++ [x]) hlen2
      have htot : (acc ++ [x]).length + xs.length =
          acc.length + (x :: xs).length := by
        simp only [List.length_append, List.length_cons, List.length_nil]
        omega
      have happ : (acc ++ [x]) ++ xs = acc ++ x :: xs := by
        simp
      rw [chunkSamples_cons_noemit acc x xs hfull]
      rw [htot] at ih2 ih3 ih4
      rw [happ] at ih3 ih4
      exact ⟨ih1, ih2, ih3, ih4⟩

theorem chunkSamples_append : ∀ (xs ys acc : List ℚ),
    chunkSamples acc (xs ++ ys) =
      ((chunkSamples (chunkSamples acc xs).1 ys).1,
        (chunkSamples acc xs).2 ++
          (chunkSamples (chunkSamples acc xs).1 ys).2) := by
  intro xs
  induction xs with
  | nil => intro ys acc; simp [chunkSamples_nil]
  | cons x xs ih =>
    intro ys acc
    rw [show (x :: xs) ++ ys = x :: (xs ++ ys) from rfl]
    by_cases hfull : frameSize ≤ (acc ++ [x]).length
    · rw [chunkSamples_cons_emit _ _ _ hfull,
        chunkSamples_cons_emit _ _ _ hfull, ih ys []]
      simp
    · rw [chunkSamples_cons_noemit _ _ _ hfull,
        chunkSamples_cons_noemit _ _ _ hfull]
      exact ih ys (acc ++ [x])

theorem chunkBlocks_foldl : ∀ (blocks : List (List ℚ)) (acc : List ℚ)
    (fs : List (List ℤ)),
    blocks.foldl (fun st b =>
      let r := chunkSamples st.1 b
      (r.1, st.2 ++ r.2)) (acc, fs) =
    ((chunkSamples acc blocks.flatten).1,
      fs ++ (chunkSamples acc blocks.flatten).2) := by
  intro blocks
  induction blocks with
  | nil => intro acc fs; simp [chunkSamples_nil]
  | cons b bs ih =>
    intro acc fs
    rw [List.foldl_cons]
    show bs.foldl _ ((chunkSamples acc b).1, fs ++ (chunkSamples acc b).2) = _
    rw [ih]
    rw [show (b :: bs).flatten = b ++ bs.flatten from rfl]
    rw [chunkSamples_append b bs.flatten acc]
    simp [List.append_assoc]

/-- C5: over any sequence of input blocks the chunker emits exactly
floor(totalSamples / 320) frames, each of exactly 320 samples, whose
concatenation is the converted prefix of the input in order (no sample
duplicated or dropped), with the incomplete remainder retained in the
accumulator. -/
theorem frame_chunker_exact (blocks : List (List ℚ)) :
    frameSize = 320 ∧
    (chunkBlocks [] blocks).2.length = blocks.flatten.length / frameSize ∧
    (∀ f ∈ (chunkBlocks [] blocks).2, f.length = frameSize) ∧
    (chunkBlocks [] blocks).2.flatten =
      float32ToInt16 (blocks.flatten.take
        (frameSize * (blocks.flatten.length / frameSize))) ∧
    (chunkBlocks [] blocks).1 =
      blocks.flatten.drop (frameSize * (blocks.flatten.length / frameSize)) := by
  have heq : chunkBlocks [] blocks = chunkSamples [] blocks.flatten := by
    unfold chunkBlocks
    rw [chunkBlocks_foldl]
    simp
  obtain ⟨h1, h2, h3, h4⟩ :=
    chunkSamples_invariant blocks.flatten [] (by simp [frameSize])
  simp only [List.length_nil, Nat.zero_add, List.nil_append] at h1 h2 h3 h4
  rw [heq]
  exact ⟨rfl, h2, h1, h3, h4⟩

theorem addSample_proj (s : PBState) (x : ℚ) :
    (addSample s x).samplesAvailable =
      (if (pbCapacity : ℤ) ≤ s.samplesAvailable + 1 then (pbCapacity : ℤ) - 1
        else s.samplesAvailable + 1) ∧
    (addSample s x).isPlaying = s.isPlaying := by
  simp only [addSample]
  split_ifs <;> exact ⟨rfl, rfl⟩

theorem foldl_addSample_inv (xs : List ℚ) : ∀ (s : PBState),
    0 ≤ s.samplesAvailable → s.samplesAvailable < (pbCapacity : ℤ) →
    0 ≤ (xs.foldl addSample s).samplesAvailable ∧
    (xs.foldl addSample s).samplesAvailable < (pbCapacity : ℤ) ∧
    (xs.foldl addSample s).isPlaying = s.isPlaying := by
  induction xs with
  | nil => intro s h0 h1; exact ⟨h0, h1, rfl⟩
  | cons x xs ih =>
    intro s h0 h1
    rw [List.foldl_cons]
    obtain ⟨hav, hpl⟩ := addSample_proj s x
    have h0p : 0 ≤ (addSample s x).samplesAvailable := by
      rw [hav]; split_ifs with hc
      · norm_num [pbCapacity]
      · omega
    have h1p : (addSample s x).samplesAvailable < (pbCapacity : ℤ) := by
      rw [hav]; split_ifs with hc
      · simp [pbCapacity]
      · omega
    obtain ⟨ha, hb, hc⟩ := ih (addSample s x) h0p h1p
    exact ⟨ha, hb, hc.trans hpl⟩

theorem addAudioData_av (s : PBState) (xs : List ℚ) :
    (addAudioData s xs).1.samplesAvailable =
      (xs.foldl addSample s).samplesAvailable := by
  simp only [addAudioData]
  split_ifs <;> rfl

theorem processGo_av_le (n : ℕ) : ∀ (s : PBState), 0 ≤ s.samplesAvailable →
    0 ≤ (processGo s n).1.samplesAvailable ∧
    (processGo s n).1.samplesAvailable ≤ s.samplesAvailable := by
  induction n with
  | zero => intro s h0; exact ⟨h0, le_refl _⟩
  | succ n ih =>
    intro s h0
    simp only [processGo]
    split_ifs with hpos
    · obtain ⟨ha, hb⟩ := ih
        { s with readIndex := (s.readIndex + 1) % pbCapacity,
                 samplesAvailable := s.samplesAvailable - 1 }
        (by show (0 : ℤ) ≤ s.samplesAvailable - 1; omega)
      refine ⟨ha, le_trans hb ?_⟩
      show s.samplesAvailable - 1 ≤ s.samplesAvailable
      omega
    · exact ⟨h0, le_refl _⟩

theorem process_av (s : PBState) (n : ℕ) (h0 : 0 ≤ s.samplesAvailable) :
    0 ≤ (process s n).1.samplesAvailable ∧
    (process s n).1.samplesAvailable ≤ s.samplesAvailable := by
  unfold process
  split_ifs with hc
  · exact ⟨h0, le_refl _⟩
  · exact processGo_av_le n s h0

/-- C2: over every sequence of write, read and reset operations on the
playback ring buffer (capacity 32000), the unread-sample count satisfies
0 ≤ available ≤ capacity after every operation; overflowing writes drop
the oldest unread samples instead of blocking, so available never
exceeds capacity. -/
theorem ring_buffer_available_invariant (ops : List PBOp) :
    pbCapacity = 32000 ∧
    0 ≤ (runOps initPB ops).samplesAvailable ∧
    (runOps initPB ops).samplesAvailable ≤ (pbCapacity : ℤ) := by
  have key : ∀ (l : List PBOp) (s : PBState), 0 ≤ s.samplesAvailable →
      s.samplesAvailable < (pbCapacity : ℤ) →
      0 ≤ (l.foldl applyOp s).samplesAvailable ∧
      (l.foldl applyOp s).samplesAvailable < (pbCapacity : ℤ) := by
    intro l
    induction l with
    | nil => intro s h0 h1; exact ⟨h0, h1⟩
    | cons op l ih =>
      intro s h0 h1
      rw [List.foldl_cons]
      cases op with
      | write xs =>
        obtain ⟨ha, hb, _⟩ := foldl_addSample_inv xs s h0 h1
        exact ih _ (by rw [show applyOp s (PBOp.write xs) =
            (addAudioData s xs).1 from rfl, addAudioData_av]; exact ha)
          (by rw [show applyOp s (PBOp.write xs) =
            (addAudioData s xs).1 from rfl, addAudioData_av]; exact hb)
      | read n =>
        obtain ⟨ha, hb⟩ := process_av s n h0
        exact ih _ ha (lt_of_le_of_lt hb h1)
      | reset =>
        exact ih _ (by norm_num [applyOp, resetPB, initPB])
          (by norm_num [applyOp, resetPB, initPB, pbCapacity])
  have h := key ops initPB (by norm_num [initPB])
    (by norm_num [initPB, pbCapacity])
  exact ⟨rfl, h.1, le_of_lt h.2⟩

theorem processGo_full (n : ℕ) : ∀ (s : PBState),
    (n : ℤ) ≤ s.samplesAvailable →
    (processGo s n).1.samplesAvailable = s.samplesAvailable - n ∧
    (processGo s n).1.isPlaying = s.isPlaying ∧
    (processGo s n).2.2 = [] := by
  induction n with
  | zero =>
    intro s h
    refine ⟨?_, rfl, rfl⟩
    show s.samplesAvailable = s.samplesAvailable - ((0 : ℕ) : ℤ)
    simp
  | succ n ih =>
    intro s h
    have hpos : 0 < s.samplesAvailable := by
      push_cast at h
      omega
    simp only [processGo]
    rw [if_pos hpos]
    obtain ⟨ha, hb, hc⟩ := ih
      { s with readIndex := (s.readIndex + 1) % pbCapacity,
               samplesAvailable := s.samplesAvailable - 1 }
      (by show (n : ℤ) ≤ s.samplesAvailable - 1; push_cast at h ⊢; omega)
    refine ⟨?_, hb, hc⟩
    rw [ha]
    show s.samplesAvailable - 1 - (n : ℤ) = s.samplesAvailable - ((n + 1 : ℕ) : ℤ)
    push_cast
    ring

theorem processGo_break (n : ℕ) : ∀ (s : PBState),
    0 ≤ s.samplesAvailable → s.samplesAvailable < (n : ℤ) →
    (processGo s n).2.2 = [PBEvent.ended] ∧
    (processGo s n).1.isPlaying = false ∧
    (processGo s n).1.samplesAvailable = 0 := by
  induction n with
  | zero =>
    intro s h0 h1
    rw [Nat.cast_zero] at h1
    omega
  | succ n ih =>
    intro s h0 h1
    simp only [processGo]
    by_cases hpos : 0 < s.samplesAvailable
    · rw [if_pos hpos]
      exact ih
        { s with readIndex := (s.readIndex + 1) % pbCapacity,
                 samplesAvailable := s.samplesAvailable - 1 }
        (by show (0 : ℤ) ≤ s.samplesAvailable - 1; omega)
        (by show s.samplesAvailable - 1 < (n : ℤ); push_cast at h1 ⊢; omega)
    · rw [if_neg hpos]
      refine ⟨rfl, rfl, ?_⟩
      show s.samplesAvailable = 0
      omega

/-- C4 (amended): a process call on a primed buffer posts the ended event
exactly when it starts with 0 < available < blockLength, i.e. when the
drain to empty happens strictly inside the block; it then unprimes the
buffer.  A call that starts with available = 0 or drains the block fully
(available a multiple of the block length included) posts nothing and
leaves the buffer primed, so a drain landing exactly on a block boundary
never produces an ended event. -/
theorem process_ended_event_iff (s : PBState) (n : ℕ)
    (hp : s.isPlaying = true) (hn : 0 < n) (h0 : 0 ≤ s.samplesAvailable) :
    ((process s n).2.2 = [PBEvent.ended] ↔
      0 < s.samplesAvailable ∧ s.samplesAvailable < (n : ℤ)) ∧
    ((process s n).2.2 = [] ∨ (process s n).2.2 = [PBEvent.ended]) ∧
    ((process s n).2.2 = [PBEvent.ended] →
      (process s n).1.isPlaying = false ∧
      (process s n).1.samplesAvailable = 0) ∧
    ((process s n).2.2 = [] → (process s n).1.isPlaying = true) := by
  by_cases hz : s.samplesAvailable = 0
  · have hpr : process s n = (s, List.replicate n 0, []) := by
      unfold process
      rw [if_pos (Or.inr hz)]
    rw [hpr]
    refine ⟨?_, Or.inl rfl, ?_, fun _ => hp⟩
    · constructor
      · intro hcon
        exact absurd hcon (by simp)
      · rintro ⟨hlt, _⟩
        omega
    · intro hcon
      exact absurd hcon (by simp)
  · have hcond : ¬(¬s.isPlaying = true ∨ s.samplesAvailable = 0) := by
      simp [hp, hz]
    have hpr : process s n =
        ((processGo s n).1,
          (processGo s n).2.1 ++
            List.replicate (n - (processGo s n).2.1.length) 0,
          (processGo s n).2.2) := by
      unfold process
      rw [if_neg hcond]
    by_cases hge : (n : ℤ) ≤ s.samplesAvailable
    · obtain ⟨ha, hb, hc⟩ := processGo_full n s hge
      have hev : (process s n).2.2 = [] := by rw [hpr]; exact hc
      have hip : (process s n).1.isPlaying = true := by
        rw [hpr]; exact hb.trans hp
      refine ⟨?_, Or.inl hev, ?_, fun _ => hip⟩
      · rw [hev]
        constructor
        · intro hcon
          exact absurd hcon (by simp)
        · rintro ⟨_, hlt⟩
          omega
      · intro hcon
        rw [hev] at hcon
        exact absurd hcon (by simp)
    · obtain ⟨ha, hb, hc⟩ := processGo_break n s h0 (not_le.mp hge)
      have hev : (process s n).2.2 = [PBEvent.ended] := by rw [hpr]; exact ha
      have hip : (process s n).1.isPlaying = false := by rw [hpr]; exact hb
      have hav : (process s n).1.samplesAvailable = 0 := by rw [hpr]; exact hc
      refine ⟨?_, Or.inr hev, fun _ => ⟨hip, hav⟩, ?_⟩
      · rw [hev]
        constructor
        · intro _
          exact ⟨lt_of_le_of_ne h0 (Ne.symm hz), not_le.mp hge⟩
        · intro _
          rfl
      · intro hcon
        rw [hev] at hcon
        exact absurd hcon (by simp)

/-- Witness for the amended C4 statement: a primed buffer holding 5
samples drained by a 128-sample block posts the ended event. -/
theorem process_ended_event_iff_witness :
    (process
      { buf := fun _ => 0, writeIndex := 0, readIndex := 0,
        samplesAvailable := 5, isPlaying := true } 128).2.2 =
      [PBEvent.ended] :=
  ((process_ended_event_iff
    { buf := fun _ => 0, writeIndex := 0, readIndex := 0,
      samplesAvailable := 5, isPlaying := true } 128
    rfl (by norm_num) (by norm_num)).1).mpr (by norm_num)

theorem foldl_addSample_no_clamp (n : ℕ) : ∀ (s : PBState) (x : ℚ),
    s.samplesAvailable + n < (pbCapacity : ℤ) →
    ((List.replicate n x).foldl addSample s).samplesAvailable =
      s.samplesAvailable + n ∧
    ((List.replicate n x).foldl addSample s).isPlaying = s.isPlaying := by
  induction n with
  | zero => intro s x _; simp
  | succ n ih =>
    intro s x h
    rw [List.replicate_succ, List.foldl_cons]
    obtain ⟨hav, hpl⟩ := addSample_proj s x
    have hnc : ¬((pbCapacity : ℤ) ≤ s.samplesAvailable + 1) := by
      push_cast at h ⊢
      omega
    have hav2 : (addSample s x).samplesAvailable = s.samplesAvailable + 1 := by
      rw [hav, if_neg hnc]
    obtain ⟨ha, hb⟩ := ih (addSample s x) x
      (by rw [hav2]; push_cast at h ⊢; omega)
    constructor
    · rw [ha, hav2]
      push_cast
      ring
    · rw [hb, hpl]

theorem addAudioData_write1920_av :
    (List.foldl addSample initPB (List.replicate 1920 0)).samplesAvailable =
      1920 := by
  obtain ⟨hav, hpl⟩ := foldl_addSample_no_clamp 1920 initPB 0
    (by norm_num [initPB, pbCapacity])
  rw [hav]
  norm_num [initPB]

theorem addAudioData_write1920_play :
    (List.foldl addSample initPB (List.replicate 1920 0)).isPlaying =
      false := by
  obtain ⟨hav, hpl⟩ := foldl_addSample_no_clamp 1920 initPB 0
    (by norm_num [initPB, pbCapacity])
  rw [hpl]
  rfl

theorem addAudioData_write1920 :
    addAudioData initPB (List.replicate 1920 0) =
      (PBState.mk
        (List.foldl addSample initPB (List.replicate 1920 0)).buf
        (List.foldl addSample initPB (List.replicate 1920 0)).writeIndex
        (List.foldl addSample initPB (List.replicate 1920 0)).readIndex
        1920 true, [PBEvent.started]) := by
  have hcond : ¬(List.foldl addSample initPB
        (List.replicate 1920 0)).isPlaying = true ∧
      jitterBufferSize ≤ (List.foldl addSample initPB
        (List.replicate 1920 0)).samplesAvailable := by
    refine ⟨fun h => ?_, ?_⟩
    · rw [addAudioData_write1920_play] at h
      exact absurd h (by decide)
    · rw [addAudioData_write1920_av]
      norm_num [jitterBufferSize]
  simp only [addAudioData]
  rw [if_pos hcond, addAudioData_write1920_av]

theorem process_drain_block (s : PBState) (k : ℕ) (hp : s.isPlaying = true)
    (hav : s.samplesAvailable = 128 * ((k : ℤ) + 1)) :
    (process s 128).1.samplesAvailable = 128 * (k : ℤ) ∧
    (process s 128).1.isPlaying = true ∧
    (process s 128).2.2 = [] := by
  have hge : ((128 : ℕ) : ℤ) ≤ s.samplesAvailable := by
    rw [hav]
    push_cast
    omega
  have hz : ¬s.samplesAvailable = 0 := by
    rw [hav]
    omega
  have hcond : ¬(¬s.isPlaying = true ∨ s.samplesAvailable = 0) := by
    simp [hp, hz]
  obtain ⟨ha, hb, hc⟩ := processGo_full 128 s hge
  have hpr : process s 128 =
      ((processGo s 128).1,
        (processGo s 128).2.1 ++
          List.replicate (128 - (processGo s 128).2.1.length) 0,
        (processGo s 128).2.2) := by
    unfold process
    rw [if_neg hcond]
  refine ⟨?_, ?_, ?_⟩
  · rw [hpr]
    show (processGo s 128).1.samplesAvailable = 128 * (k : ℤ)
    rw [ha, hav]
    push_cast
    ring
  · rw [hpr]
    exact hb.trans hp
  · rw [hpr]
    exact hc

theorem multi_read_block : ∀ (k : ℕ) (s : PBState) (evs : List PBEvent),
    s.isPlaying = true → s.samplesAvailable = 128 * (k : ℤ) →
    ((List.replicate k (PBOp.read 128)).foldl applyOpEv
      (s, evs)).1.samplesAvailable = 0 ∧
    ((List.replicate k (PBOp.read 128)).foldl applyOpEv
      (s, evs)).1.isPlaying = true ∧
    ((List.replicate k (PBOp.read 128)).foldl applyOpEv (s, evs)).2 = evs := by
  intro k
  induction k with
  | zero =>
    intro s evs hp hav
    refine ⟨?_, hp, rfl⟩
    simpa using hav
  | succ k ih =>
    intro s evs hp hav
    rw [List.replicate_succ, List.foldl_cons]
    obtain ⟨ha, hb, hc⟩ := process_drain_block s k hp
      (by rw [hav]; push_cast; ring)
    have hstep : applyOpEv (s, evs) (PBOp.read 128) =
        ((process s 128).1, evs) := by
      simp only [applyOpEv]
      rw [hc]
      simp
    rw [hstep]
    exact ih (process s 128).1 evs hb ha

theorem write1920_res_ev :
    (addAudioData initPB (List.replicate 1920 0)).2 = [PBEvent.started] := by
  rw [addAudioData_write1920]

theorem write1920_res_play :
    (addAudioData initPB (List.replicate 1920 0)).1.isPlaying = true := by
  rw [addAudioData_write1920]

theorem write1920_res_av :
    (addAudioData initPB (List.replicate 1920 0)).1.samplesAvailable =
      1920 := by
  rw [addAudioData_write1920]

theorem applyOpEv_write (s : PBState) (evs : List PBEvent) (xs : List ℚ) :
    applyOpEv (s, evs) (PBOp.write xs) =
      ((addAudioData s xs).1, evs ++ (addAudioData s xs).2) := rfl

theorem applyOpEv_read (st : PBState × List PBEvent) (n : ℕ) :
    applyOpEv st (PBOp.read n) =
      ((process st.1 n).1, st.2 ++ (process st.1 n).2.2) := rfl

theorem process_empty_state (s : PBState) (n : ℕ)
    (h : s.samplesAvailable = 0) :
    process s n = (s, List.replicate n 0, []) := by
  unfold process
  rw [if_pos (Or.inr h)]

theorem pbpair_fst (a : PBState) (b : List PBEvent) :
    ((a, b) : PBState × List PBEvent).1 = a := rfl

theorem pbpair_snd (a : PBState) (b : List PBEvent) :
    ((a, b) : PBState × List PBEvent).2 = b := rfl

theorem pbtriple_fst (a : PBState) (b : List ℚ) (c : List PBEvent) :
    ((a, b, c) : PBState × List ℚ × List PBEvent).1 = a := rfl

theorem pbtriple_events (a : PBState) (b : List ℚ) (c : List PBEvent) :
    ((a, b, c) : PBState × List ℚ × List PBEvent).2.2 = c := rfl

theorem read16_from_1920 (S : PBState) (evs0 : List PBEvent)
    (hSp : S.isPlaying = true) (hSav : S.samplesAvailable = 1920) :
    ((List.replicate 16 (PBOp.read 128)).foldl applyOpEv (S, evs0)).2 =
      evs0 ∧
    ((List.replicate 16 (PBOp.read 128)).foldl applyOpEv
      (S, evs0)).1.isPlaying = true ∧
    ((List.replicate 16 (PBOp.read 128)).foldl applyOpEv
      (S, evs0)).1.samplesAvailable = 0 := by
  obtain ⟨hm0, hm1, hm2⟩ := multi_read_block 15 S evs0 hSp
    (by rw [hSav]; norm_num)
  have hsplit : List.replicate 16 (PBOp.read 128) =
      List.replicate 15 (PBOp.read 128) ++ [PBOp.read 128] := by
    rw [← List.replicate_succ']
  rw [hsplit, List.foldl_append, List.foldl_cons, List.foldl_nil,
    applyOpEv_read, process_empty_state _ 128 hm0]
  refine ⟨?_, ?_, ?_⟩
  · simp only [pbpair_snd, pbtriple_events, List.append_nil]
    exact hm2
  · simp only [pbpair_fst, pbtriple_fst]
    exact hm1
  · simp only [pbpair_fst, pbtriple_fst]
    exact hm0

/-- C4 (counterexample): writing exactly the 1920-sample jitter threshold
primes the buffer; fifteen 128-sample reads then drain it to exactly
zero at a block boundary, and a sixteenth read past empty emits nothing:
the whole trace contains no ended event at all and the buffer stays
primed, refuting the claimed exactly-one ended event. -/
theorem playback_ended_missed_counterexample :
    ((runOpsEv initPB (PBOp.write (List.replicate 1920 0) ::
        List.replicate 16 (PBOp.read 128))).2.count PBEvent.ended = 0) ∧
    (runOpsEv initPB (PBOp.write (List.replicate 1920 0) ::
        List.replicate 16 (PBOp.read 128))).1.isPlaying = true ∧
    (runOpsEv initPB (PBOp.write (List.replicate 1920 0) ::
        List.replicate 16 (PBOp.read 128))).1.samplesAvailable = 0 := by
  obtain ⟨hw1, hw2, hw3⟩ := read16_from_1920
    (addAudioData initPB (List.replicate 1920 0)).1 [PBEvent.started]
    write1920_res_play write1920_res_av
  have hrun : runOpsEv initPB (PBOp.write (List.replicate 1920 0) ::
        List.replicate 16 (PBOp.read 128)) =
      (List.replicate 16 (PBOp.read 128)).foldl applyOpEv
        ((addAudioData initPB (List.replicate 1920 0)).1,
          [PBEvent.started]) := by
    unfold runOpsEv
    rw [List.foldl_cons, applyOpEv_write, write1920_res_ev,
      List.nil_append]
  rw [hrun, hw1, hw2, hw3]
  exact ⟨rfl, rfl, rfl⟩

theorem lookupNorm_mem {entries : List (String × String)} {k a : String}
    (h : lookupNorm entries k = some a) : (k, a) ∈ entries := by
  unfold lookupNorm at h
  cases hfind : entries.find? (fun e => e.1 = k) with
  | none => rw [hfind] at h; simp at h
  | some e =>
    rw [hfind] at h
    simp only [Option.map_some', Option.some.injEq] at h
    have hmem := List.mem_of_find?_eq_some hfind
    have hpred := List.find?_some hfind
    simp only [decide_eq_true_eq] at hpred
    have he : e = (k, a) := by
      cases e
      simp only [Prod.mk.injEq]
      exact ⟨hpred, h⟩
    rw [← he]
    exact hmem

theorem bestFuzzy_sound (q : String) :
    ∀ (l : List (String × String)) (b : ℚ × Option String) (a : String),
    (l.foldl (fun best e =>
      let score := calculateLevenshtein q e.1
      if best.1 < score ∧ (1 / 2 : ℚ) ≤ score then (score, some e.2)
      else best) b).2 = some a →
    b.2 = some a ∨
      ∃ e ∈ l, e.2 = a ∧ (1 / 2 : ℚ) ≤ calculateLevenshtein q e.1 := by
  intro l
  induction l with
  | nil => intro b a h; exact Or.inl h
  | cons e l ih =>
    intro b a h
    rw [List.foldl_cons] at h
    rcases ih _ a h with hb | ⟨e2, he2, ha2, hs2⟩
    · simp only [] at hb
      by_cases hc : (b.1 < calculateLevenshtein q e.1 ∧
          (1 / 2 : ℚ) ≤ calculateLevenshtein q e.1)
      · rw [if_pos hc] at hb
        simp only [Option.some.injEq] at hb
        exact Or.inr ⟨e, List.mem_cons_self _ _, hb, hc.2⟩
      · rw [if_neg hc] at hb
        exact Or.inl hb
    · exact Or.inr ⟨e2, List.mem_cons_of_mem _ he2, ha2, hs2⟩

theorem bestCandidate_sound (entries : List (String × String)) (q : String) :
    ∀ (cands : List String) (b : ℚ × Option String) (a : String),
    (cands.foldl (fun best k =>
      let score := calculateLevenshtein q k
      if best.1 < score then (score, lookupNorm entries k) else best) b).2 =
      some a →
    (b.2 = some a ∧
      (cands.foldl (fun best k =>
        let score := calculateLevenshtein q k
        if best.1 < score then (score, lookupNorm entries k) else best)
        b).1 = b.1) ∨
    ∃ k ∈ cands, lookupNorm entries k = some a ∧
      (cands.foldl (fun best k =>
        let score := calculateLevenshtein q k
        if best.1 < score then (score, lookupNorm entries k) else best)
        b).1 = calculateLevenshtein q k := by
  intro cands
  induction cands with
  | nil => intro b a h; exact Or.inl ⟨h, rfl⟩
  | cons k cands ih =>
    intro b a h
    rw [List.foldl_cons] at h
    rcases ih _ a h with ⟨hb2, hfst⟩ | ⟨k2, hk2, hlook, hfst⟩
    · simp only [] at hb2 hfst
      by_cases hc : b.1 < calculateLevenshtein q k
      · rw [if_pos hc] at hb2 hfst
        refine Or.inr ⟨k, List.mem_cons_self _ _, hb2, ?_⟩
        rw [List.foldl_cons]
        simp only []
        rw [if_pos hc]
        exact hfst
      · rw [if_neg hc] at hb2 hfst
        refine Or.inl ⟨hb2, ?_⟩
        rw [List.foldl_cons]
        simp only []
        rw [if_neg hc]
        exact hfst
    · refine Or.inr ⟨k2, List.mem_cons_of_mem _ hk2, hlook, ?_⟩
      rw [List.foldl_cons]
      exact hfst

/-- C8 (amended): the lookup tries exact match first and returns the
default response when no stage matches, but a match that is neither
exact nor a substring containment only guarantees a normalized
edit-distance similarity strictly above 0.4, not 0.5: the keyword stage
accepts at the 0.4 floor and only the final all-entries stage uses the
0.5 floor. -/
theorem knowledge_base_matching (data : List (String × String)) (q : String) :
    (∀ a, lookupNorm (normData data) (normalizeText q) = some a →
      find data q = some a) ∧
    (find data q = none → getAnswer data q = defaultResponse) ∧
    (∀ a, lookupNorm (normData data) (normalizeText q) = none →
      containsMatch (normData data) (normalizeText q) = none →
      find data q = some a →
      ∃ k, (k, a) ∈ normData data ∧
        (2 / 5 : ℚ) < calculateLevenshtein (normalizeText q) k) := by
  refine ⟨?_, ?_, ?_⟩
  · intro a h
    simp only [find]
    rw [h]
  · intro h
    unfold getAnswer
    rw [h]
  · intro a hne hnc hfind
    simp only [find] at hfind
    rw [hne] at hfind
    simp only [] at hfind
    rw [hnc] at hfind
    simp only [] at hfind
    by_cases hcase : (2 / 5 : ℚ) <
        (bestCandidate (normData data) (normalizeText q)
          (candidateKeys (normData data) (normalizeText q))).1
    · rw [if_pos hcase] at hfind
      unfold bestCandidate at hfind
      rcases bestCandidate_sound (normData data) (normalizeText q)
          (candidateKeys (normData data) (normalizeText q))
          ((0 : ℚ), (none : Option String)) a hfind with
        ⟨hb2, _⟩ | ⟨k, hkmem, hlook, hfst⟩
      · exact absurd hb2 (by simp)
      · refine ⟨k, lookupNorm_mem hlook, ?_⟩
        unfold bestCandidate at hcase
        rw [hfst] at hcase
        exact hcase
    · rw [if_neg hcase] at hfind
      unfold bestFuzzy at hfind
      rcases bestFuzzy_sound (normalizeText q) (normData data)
          ((0 : ℚ), (none : Option String)) a hfind with
        hb | ⟨e, hemem, ha, hs⟩
      · exact absurd hb (by simp)
      · obtain ⟨k, v⟩ := e
        simp only [] at ha hs
        subst ha
        exact ⟨k, hemem, by linarith [hs]⟩

theorem c8_score_value :
    calculateLevenshtein (normalizeText "abc uqqqqqq") "abc uvwxyzp" =
      5 / 11 := by
  unfold calculateLevenshtein
  rw [show levDistance (normalizeText "abc uqqqqqq") "abc uvwxyzp" = 6 from
    by decide]
  rw [show (normalizeText "abc uqqqqqq").length = 11 from by decide]
  rw [show ("abc uvwxyzp" : String).length = 11 from by decide]
  norm_num [max_self]

theorem c8_best_value :
    bestCandidate (normData [("abc uvwxyzp", "A")])
      (normalizeText "abc uqqqqqq")
      (candidateKeys (normData [("abc uvwxyzp", "A")])
        (normalizeText "abc uqqqqqq")) = (5 / 11, some "A") := by
  rw [show candidateKeys (normData [("abc uvwxyzp", "A")])
      (normalizeText "abc uqqqqqq") = ["abc uvwxyzp"] from by decide]
  unfold bestCandidate
  rw [List.foldl_cons, List.foldl_nil]
  simp only []
  rw [c8_score_value]
  rw [if_pos (by norm_num : ((0 : ℚ), (none : Option String)).1 < 5 / 11)]
  rw [show lookupNorm (normData [("abc uvwxyzp", "A")]) "abc uvwxyzp" =
    some "A" from by decide]

/-- C8 (counterexample): for the knowledge base {"abc uvwxyzp": "A"} and
the transcript "abc uqqqqqq" there is no exact or substring match, the
similarity is 5/11 < 0.5, yet find accepts the entry through the keyword
stage (floor 0.4), refuting acceptance only at similarity at least 0.5. -/
theorem keyword_stage_below_half_counterexample :
    find [("abc uvwxyzp", "A")] "abc uqqqqqq" = some "A" ∧
    lookupNorm (normData [("abc uvwxyzp", "A")])
      (normalizeText "abc uqqqqqq") = none ∧
    containsMatch (normData [("abc uvwxyzp", "A")])
      (normalizeText "abc uqqqqqq") = none ∧
    calculateLevenshtein (normalizeText "abc uqqqqqq") "abc uvwxyzp" <
      1 / 2 := by
  refine ⟨?_, by decide, by decide, ?_⟩
  · simp only [find]
    rw [show lookupNorm (normData [("abc uvwxyzp", "A")])
      (normalizeText "abc uqqqqqq") = none from by decide]
    simp only []
    rw [show containsMatch (normData [("abc uvwxyzp", "A")])
      (normalizeText "abc uqqqqqq") = none from by decide]
    simp only []
    rw [c8_best_value]
    rw [if_pos (by norm_num : (2 / 5 : ℚ) <
      ((5 / 11 : ℚ), some "A").1)]
  · rw [c8_score_value]
    norm_num

/-- Witness for the amended C8 statement: on the empty knowledge base
every lookup misses and getAnswer returns the default response. -/
theorem knowledge_base_matching_witness :
    find ([] : List (String × String)) "zzz" = none ∧
    getAnswer ([] : List (String × String)) "zzz" = defaultResponse := by
  have hnone : find ([] : List (String × String)) "zzz" = none := by
    simp only [find]
    rw [show lookupNorm (normData ([] : List (String × String)))
      (normalizeText "zzz") = none from by decide]
    simp only []
    rw [show containsMatch (normData ([] : List (String × String)))
      (normalizeText "zzz") = none from by decide]
    simp only []
    rw [show candidateKeys (normData ([] : List (String × String)))
      (normalizeText "zzz") = [] from by decide]
    unfold bestCandidate
    rw [List.foldl_nil]
    rw [if_neg (by norm_num : ¬(2 / 5 : ℚ) <
      ((0 : ℚ), (none : Option String)).1)]
    unfold bestFuzzy
    rw [show normData ([] : List (String × String)) = [] from rfl,
      List.foldl_nil]
  exact ⟨hnone, (knowledge_base_matching [] "zzz").2.1 hnone⟩
